import Mathlib

/-!
# Verification of the voice_signal_capture pipeline

Shallow embedding of the parts of the repository that the checked claims
touch, together with theorems settling each claim.

* `VoiceSegment`, `addPacket`, `processPacket`, `gcOld` embed
  `VoiceSegment.add_packet` / `_process_packet` and its garbage collection
  from `listen_and_build_voice_stream.py`.
* The event-ordering queue of `backend-daemon/daemon.py`
  (`EventQueueManager`) is embedded as a sorted-list min-heap with the
  publish condition of `try_publish_ready_events`.
* The daemon main-loop message handling, the allow list, the ticket proxy
  route and the WebSocket client registry are embedded further below.

Machine integers are modelled as `Int`/`Nat` (Python integers are unbounded;
the only wrap in the relevant code is the explicit `& 0xFFFF`, modelled as
`% 65536`). Timestamps are modelled as rationals: the code only adds,
subtracts, divides by constants and compares them.
-/

set_option maxHeartbeats 1000000
set_option maxRecDepth 100000

/-- Byte value G.711 mu-law silence, `0xFF` in the source. -/
def silenceByte : Nat := 0xFF

/-- State of `VoiceSegment` in `listen_and_build_voice_stream.py`
(the fields touched by `add_packet` / `_process_packet`):
`buffer`, `samples_received`, `last_seq`, `packet_buffer` (a dict,
embedded as an association list in insertion order), `last_processed_seq`,
`silence_packets`, `non_silence_packets`, `discontinuities`, `max_seq_gap`. -/
structure VoiceSegment where
  buffer : List Nat := []
  samplesReceived : Nat := 0
  lastSeq : Option Int := none
  packetBuffer : List (Int × List Nat) := []
  lastProcessedSeq : Option Int := none
  silencePackets : Nat := 0
  nonSilencePackets : Nat := 0
  discontinuities : Nat := 0
  maxSeqGap : Nat := 0
  deriving Repr, DecidableEq

/-- Fresh segment, as built by `VoiceSegment.__init__`. -/
def VoiceSegment.new : VoiceSegment := {}

/-- `seq in self.packet_buffer` / `self.packet_buffer[seq]` (dict lookup). -/
def pbLookup (seq : Int) : List (Int × List Nat) → Option (List Nat)
  | [] => none
  | e :: rest => if e.1 = seq then some e.2 else pbLookup seq rest

/-- `self.packet_buffer.pop(seq)` / `del self.packet_buffer[seq]`
(dict deletion; keys are unique, so deleting the first hit is exact). -/
def pbErase (seq : Int) : List (Int × List Nat) → List (Int × List Nat)
  | [] => []
  | e :: rest => if e.1 = seq then rest else e :: pbErase seq rest

/-- `self.packet_buffer[seq] = payload` (dict assignment: overwrite in place
when the key exists, append otherwise — Python dicts keep insertion order). -/
def pbInsert (seq : Int) (payload : List Nat) : List (Int × List Nat) → List (Int × List Nat)
  | [] => [(seq, payload)]
  | e :: rest => if e.1 = seq then (seq, payload) :: rest else e :: pbInsert seq payload rest

/-- `silence_payload = bytes([0xFF] * len(payload))`. -/
def silencePayload (len : Nat) : List Nat := List.replicate len silenceByte

/-- `for _ in range(gap): self.buffer.extend(silence_payload)`. -/
def appendSilence (buf : List Nat) (len : Nat) : Nat → List Nat
  | 0 => buf
  | g + 1 => appendSilence (buf ++ silencePayload len) len g

/-- `VoiceSegment._process_packet(payload, seq)`: gap detection with
`gap = (seq - self.last_seq - 1) & 0xFFFF`, silence fill, silence/voice
counting, then append of the payload. -/
def processPacket (seg : VoiceSegment) (payload : List Nat) (seq : Int) : VoiceSegment :=
  let seg1 :=
    match seg.lastSeq with
    | none => seg
    | some last =>
      let gap : Int := (seq - last - 1) % 65536
      if 0 < gap then
        { seg with
          discontinuities := seg.discontinuities + 1
          maxSeqGap := max seg.maxSeqGap gap.toNat
          buffer := appendSilence seg.buffer payload.length gap.toNat }
      else seg
  let seg2 :=
    if payload.all (fun b => b = silenceByte) then
      { seg1 with silencePackets := seg1.silencePackets + 1 }
    else
      { seg1 with nonSilencePackets := seg1.nonSilencePackets + 1 }
  { seg2 with
    buffer := seg2.buffer ++ payload
    samplesReceived := seg2.samplesReceived + payload.length
    lastSeq := some seq }

@[simp]
theorem processPacket_packetBuffer (seg : VoiceSegment) (payload : List Nat) (seq : Int) :
    (processPacket seg payload seq).packetBuffer = seg.packetBuffer := by
  unfold processPacket
  cases seg.lastSeq <;> dsimp only <;> (repeat' split) <;> rfl

@[simp]
theorem processPacket_lastProcessedSeq (seg : VoiceSegment) (payload : List Nat) (seq : Int) :
    (processPacket seg payload seq).lastProcessedSeq = seg.lastProcessedSeq := by
  unfold processPacket
  cases seg.lastSeq <;> dsimp only <;> (repeat' split) <;> rfl

theorem pbErase_length_lt {seq : Int} {pb : List (Int × List Nat)} {v : List Nat}
    (h : pbLookup seq pb = some v) : (pbErase seq pb).length < pb.length := by
  induction pb with
  | nil => simp [pbLookup] at h
  | cons e rest ih =>
    by_cases he : e.1 = seq
    · simp [pbErase, he]
    · simp only [pbLookup, he, if_neg, ite_false] at h
      simp only [pbErase, he, ite_false, List.length_cons]
      exact Nat.succ_lt_succ (ih h)

/-- The `while next_seq in self.packet_buffer` loop of `add_packet`:
pop the packet at `next`, feed it to `_process_packet`, record
`last_processed_seq = next_seq`, advance. Every iteration pops exactly one
entry of `packet_buffer`, so the loop runs at most `packet_buffer.length`
times; that bound is passed as structural fuel (when the fuel is exhausted
the buffer is empty, so the `while` condition is false anyway). -/
def drainLoop (fuel : Nat) (seg : VoiceSegment) (next : Int) : VoiceSegment :=
  match fuel with
  | 0 => seg
  | fuel + 1 =>
    match pbLookup next seg.packetBuffer with
    | none => seg
    | some payload =>
      drainLoop fuel
        { processPacket { seg with packetBuffer := pbErase next seg.packetBuffer } payload next with
          lastProcessedSeq := some next }
        (next + 1)

/-- The garbage-collection loop of `add_packet`: drop every buffered packet
with `old_seq < last_processed_seq - 100`, counting each as a
discontinuity. -/
def gcOld (seg : VoiceSegment) : VoiceSegment :=
  match seg.lastProcessedSeq with
  | none => seg
  | some lp =>
    { seg with
      packetBuffer := seg.packetBuffer.filter (fun e => decide (lp - 100 ≤ e.1))
      discontinuities :=
        seg.discontinuities + seg.packetBuffer.countP (fun e => decide (e.1 < lp - 100)) }

/-- `VoiceSegment.add_packet(payload, seq)`: store the packet, initialise
`last_processed_seq` to `seq - 1` on the first packet, drain the contiguous
run, garbage-collect. -/
def addPacket (seg : VoiceSegment) (payload : List Nat) (seq : Int) : VoiceSegment :=
  let seg1 := { seg with packetBuffer := pbInsert seq payload seg.packetBuffer }
  let seg2 :=
    match seg1.lastProcessedSeq with
    | none => { seg1 with lastProcessedSeq := some (seq - 1) }
    | some _ => seg1
  match seg2.lastProcessedSeq with
  | some lp => gcOld (drainLoop seg2.packetBuffer.length seg2 (lp + 1))
  | none => gcOld seg2

/-- Deliver a list of packets `(seq, payload)` to a fresh segment, in order. -/
def runPackets (pkts : List (Int × List Nat)) : VoiceSegment :=
  pkts.foldl (fun seg p => addPacket seg p.2 p.1) VoiceSegment.new

/-- Deliver the sequence numbers in `L`, each carrying payload `P s`. -/
def runSeqs (P : Int → List Nat) (L : List Int) : VoiceSegment :=
  L.foldl (fun seg s => addPacket seg (P s) s) VoiceSegment.new

theorem appendSilence_eq (buf : List Nat) (len g : Nat) :
    appendSilence buf len g = buf ++ List.replicate (g * len) silenceByte := by
  induction g generalizing buf with
  | zero => simp [appendSilence]
  | succ n ih =>
    rw [appendSilence, ih, List.append_assoc, Nat.succ_mul, Nat.add_comm (n * len) len]
    simp [silencePayload, ← List.replicate_add]

/-! ### Association-list facts for `packet_buffer` -/

theorem pbLookup_mem {seq : Int} {pb : List (Int × List Nat)} {v : List Nat}
    (h : pbLookup seq pb = some v) : (seq, v) ∈ pb := by
  induction pb with
  | nil => simp [pbLookup] at h
  | cons e rest ih =>
    simp only [pbLookup] at h
    by_cases he : e.1 = seq
    · rw [if_pos he] at h
      have hv : e.2 = v := Option.some.inj h
      have : (seq, v) = e := by rw [← he, ← hv]
      rw [this]
      exact List.mem_cons_self _ _
    · rw [if_neg he] at h
      exact List.mem_cons_of_mem _ (ih h)

theorem pbLookup_insert (k : Int) (v : List Nat) (pb : List (Int × List Nat)) (s : Int) :
    pbLookup s (pbInsert k v pb) = if k = s then some v else pbLookup s pb := by
  induction pb with
  | nil => simp [pbInsert, pbLookup]
  | cons e rest ih =>
    by_cases he : e.1 = k
    · subst he
      simp only [pbInsert, if_pos rfl]
      by_cases hs : e.1 = s
      · simp [pbLookup, hs]
      · simp [pbLookup, hs]
    · simp only [pbInsert, he, ite_false]
      by_cases hs : e.1 = s
      · have hks : ¬ k = s := fun h => he (hs.trans h.symm)
        simp [pbLookup, hs, hks]
      · simp [pbLookup, hs, ih]

theorem pbLookup_erase {pb : List (Int × List Nat)} (hnd : (pb.map Prod.fst).Nodup)
    (k s : Int) :
    pbLookup s (pbErase k pb) = if k = s then none else pbLookup s pb := by
  induction pb with
  | nil => simp [pbErase, pbLookup]
  | cons e rest ih =>
    simp only [List.map_cons, List.nodup_cons] at hnd
    by_cases he : e.1 = k
    · subst he
      simp only [pbErase, eq_self_iff_true, if_true]
      by_cases hs : e.1 = s
      · subst hs
        rw [if_pos rfl]
        cases hr : pbLookup e.1 rest with
        | none => rfl
        | some v => exact absurd (List.mem_map_of_mem Prod.fst (pbLookup_mem hr)) hnd.1
      · simp [pbLookup, hs]
    · simp only [pbErase, he, ite_false]
      by_cases hs : e.1 = s
      · have hks : ¬ k = s := fun h => he (hs.trans h.symm)
        simp [pbLookup, hs, hks]
      · simp [pbLookup, hs, ih hnd.2]

theorem pbErase_sublist (k : Int) (pb : List (Int × List Nat)) :
    (pbErase k pb).Sublist pb := by
  induction pb with
  | nil => simp [pbErase]
  | cons e rest ih =>
    by_cases he : e.1 = k
    · simp [pbErase, he]
    · simpa [pbErase, he] using ih.cons₂ e

theorem pbErase_nodup {pb : List (Int × List Nat)} (hnd : (pb.map Prod.fst).Nodup) (k : Int) :
    ((pbErase k pb).map Prod.fst).Nodup :=
  ((pbErase_sublist k pb).map Prod.fst).nodup hnd

theorem pbErase_length {pb : List (Int × List Nat)} {k : Int} {v : List Nat}
    (h : pbLookup k pb = some v) : (pbErase k pb).length + 1 = pb.length := by
  induction pb with
  | nil => simp [pbLookup] at h
  | cons e rest ih =>
    simp only [pbLookup] at h
    by_cases he : e.1 = k
    · simp [pbErase, he]
    · rw [if_neg he] at h
      simp [pbErase, he, ih h]

theorem pbInsert_mem {k : Int} {v : List Nat} {pb : List (Int × List Nat)}
    {e : Int × List Nat} (h : e ∈ pbInsert k v pb) : e ∈ pb ∨ e = (k, v) := by
  induction pb with
  | nil =>
    simp only [pbInsert, List.mem_singleton] at h
    exact Or.inr h
  | cons f rest ih =>
    by_cases hf : f.1 = k
    · simp only [pbInsert] at h
      rw [if_pos hf] at h
      rcases List.mem_cons.1 h with h | h
      · exact Or.inr h
      · exact Or.inl (List.mem_cons_of_mem _ h)
    · simp only [pbInsert] at h
      rw [if_neg hf] at h
      rcases List.mem_cons.1 h with h | h
      · exact Or.inl (h ▸ List.mem_cons_self _ _)
      · rcases ih h with h' | h'
        · exact Or.inl (List.mem_cons_of_mem _ h')
        · exact Or.inr h'

theorem pbInsert_keys_nodup {pb : List (Int × List Nat)} (hnd : (pb.map Prod.fst).Nodup)
    (k : Int) (v : List Nat) : ((pbInsert k v pb).map Prod.fst).Nodup := by
  induction pb with
  | nil => simp [pbInsert]
  | cons e rest ih =>
    simp only [List.map_cons, List.nodup_cons] at hnd
    by_cases he : e.1 = k
    · subst he
      simp only [pbInsert, eq_self_iff_true, if_true, List.map_cons, List.nodup_cons]
      exact ⟨hnd.1, hnd.2⟩
    · simp only [pbInsert, he, ite_false, List.map_cons, List.nodup_cons]
      refine ⟨fun hmem => ?_, ih hnd.2⟩
      rcases List.mem_map.1 hmem with ⟨f, hf, hfe⟩
      rcases pbInsert_mem hf with h | h
      · exact hnd.1 (hfe ▸ List.mem_map_of_mem Prod.fst h)
      · apply he
        rw [← hfe, h]

theorem pbInsert_eq_self {pb : List (Int × List Nat)} {k : Int} {v : List Nat}
    (h : pbLookup k pb = some v) : pbInsert k v pb = pb := by
  induction pb with
  | nil => simp [pbLookup] at h
  | cons e rest ih =>
    simp only [pbLookup] at h
    by_cases he : e.1 = k
    · rw [if_pos he] at h
      have hv : e.2 = v := Option.some.inj h
      simp only [pbInsert]
      rw [if_pos he, ← he, ← hv]
    · rw [if_neg he] at h
      simp only [pbInsert]
      rw [if_neg he, ih h]

theorem pbLookup_filter_of_pos {pb : List (Int × List Nat)}
    {p : Int × List Nat → Bool} {s : Int} {v : List Nat}
    (h : pbLookup s pb = some v) (hp : p (s, v) = true) :
    pbLookup s (pb.filter p) = some v := by
  induction pb with
  | nil => simp [pbLookup] at h
  | cons e rest ih =>
    simp only [pbLookup] at h
    by_cases he : e.1 = s
    · rw [if_pos he] at h
      have hv : e.2 = v := Option.some.inj h
      have hep : e = (s, v) := by rw [← he, ← hv]
      have hpe : p e = true := by rw [hep]; exact hp
      rw [List.filter_cons_of_pos hpe]
      simp [pbLookup, he, hv]
    · rw [if_neg he] at h
      cases hpe : p e with
      | true =>
        rw [List.filter_cons_of_pos hpe]
        simp only [pbLookup, he, ite_false]
        exact ih h
      | false =>
        rw [List.filter_cons_of_neg (by simp [hpe])]
        exact ih h

/-! ### Ranges of sequence numbers and the in-order byte stream -/

/-- `[s, s+1, ..., s+n-1]` as integers. -/
def intRange (s : Int) (n : Nat) : List Int := (List.range n).map (fun i : Nat => s + (i : Int))

/-- The bytes of payloads `P s, P (s+1), ..., P (s+n-1)` in ascending order. -/
def bufConcat (P : Int → List Nat) (s : Int) (n : Nat) : List Nat :=
  ((intRange s n).map P).flatten

theorem mem_intRange {t s : Int} {n : Nat} :
    t ∈ intRange s n ↔ s ≤ t ∧ t < s + n := by
  simp only [intRange, List.mem_map, List.mem_range]
  constructor
  · rintro ⟨i, hi, rfl⟩
    omega
  · rintro ⟨h1, h2⟩
    exact ⟨(t - s).toNat, by omega, by omega⟩

@[simp]
theorem intRange_zero (s : Int) : intRange s 0 = [] := by simp [intRange]

theorem intRange_succ_cons (s : Int) (n : Nat) :
    intRange s (n + 1) = s :: intRange (s + 1) n := by
  simp only [intRange, List.range_succ_eq_map, List.map_cons, List.map_map, Nat.cast_zero,
    add_zero]
  congr 1
  refine List.map_congr_left (fun i _ => ?_)
  simp only [Function.comp_apply]
  push_cast
  ring

@[simp]
theorem bufConcat_zero (P : Int → List Nat) (s : Int) : bufConcat P s 0 = [] := by
  simp [bufConcat]

theorem bufConcat_succ_cons (P : Int → List Nat) (s : Int) (n : Nat) :
    bufConcat P s (n + 1) = P s ++ bufConcat P (s + 1) n := by
  simp [bufConcat, intRange_succ_cons]

theorem bufConcat_append (P : Int → List Nat) (s : Int) (a b : Nat) :
    bufConcat P s (a + b) = bufConcat P s a ++ bufConcat P (s + a) b := by
  induction a generalizing s with
  | zero => simp
  | succ a ih =>
    have h1 : a + 1 + b = (a + b) + 1 := by omega
    rw [h1, bufConcat_succ_cons, bufConcat_succ_cons, ih, List.append_assoc]
    have h2 : s + 1 + (a : Int) = s + ((a : Nat) + 1 : Nat) := by push_cast; ring
    rw [h2]

/-! ### Projection facts for `_process_packet` and the GC pass -/

@[simp]
theorem processPacket_lastSeq (seg : VoiceSegment) (payload : List Nat) (seq : Int) :
    (processPacket seg payload seq).lastSeq = some seq := by
  unfold processPacket
  cases seg.lastSeq <;> dsimp only <;> (repeat' split) <;> rfl

theorem processPacket_buffer_of_none (seg : VoiceSegment) (payload : List Nat) (seq : Int)
    (h : seg.lastSeq = none) :
    (processPacket seg payload seq).buffer = seg.buffer ++ payload := by
  unfold processPacket
  rw [h]
  dsimp only
  split <;> rfl

theorem processPacket_buffer_of_contig (seg : VoiceSegment) (payload : List Nat) (seq : Int)
    (h : seg.lastSeq = some (seq - 1)) :
    (processPacket seg payload seq).buffer = seg.buffer ++ payload := by
  unfold processPacket
  rw [h]
  dsimp only
  have hz : (seq - (seq - 1) - 1) % 65536 = 0 := by
    have : seq - (seq - 1) - 1 = 0 := by ring
    rw [this]
    rfl
  rw [hz, if_neg (lt_irrefl 0)]
  split <;> rfl

@[simp]
theorem gcOld_buffer (seg : VoiceSegment) : (gcOld seg).buffer = seg.buffer := by
  unfold gcOld
  cases h : seg.lastProcessedSeq <;> simp

@[simp]
theorem gcOld_lastSeq (seg : VoiceSegment) : (gcOld seg).lastSeq = seg.lastSeq := by
  unfold gcOld
  cases h : seg.lastProcessedSeq <;> simp

@[simp]
theorem gcOld_lastProcessedSeq (seg : VoiceSegment) :
    (gcOld seg).lastProcessedSeq = seg.lastProcessedSeq := by
  unfold gcOld
  cases h : seg.lastProcessedSeq <;> simp [h]

theorem gcOld_packetBuffer {seg : VoiceSegment} {lp : Int}
    (h : seg.lastProcessedSeq = some lp) :
    (gcOld seg).packetBuffer = seg.packetBuffer.filter (fun e => decide (lp - 100 ≤ e.1)) := by
  unfold gcOld
  rw [h]

/-! ### Specification of the contiguous drain loop -/

/-- What the `while next_seq in self.packet_buffer` loop does, starting at
`next = k` on a segment whose last processed sequence is `k - 1` and whose
buffered payloads at sequences `≥ k` are given by `P`: it pops some
contiguous run `k, …, k+j-1`, appends the corresponding payloads in
ascending order with no silence inserted, and leaves every other buffered
packet untouched. -/
theorem drainLoop_spec (P : Int → List Nat) (fuel : Nat) (seg : VoiceSegment) (k : Int)
    (hfuel : seg.packetBuffer.length ≤ fuel)
    (hls : seg.lastSeq = some (k - 1))
    (hlp : seg.lastProcessedSeq = some (k - 1))
    (hnd : (seg.packetBuffer.map Prod.fst).Nodup)
    (hval : ∀ s v, pbLookup s seg.packetBuffer = some v → k ≤ s → v = P s) :
    ∃ j : Nat,
      (drainLoop fuel seg k).buffer = seg.buffer ++ bufConcat P k j ∧
      (drainLoop fuel seg k).lastSeq = some (k + j - 1) ∧
      (drainLoop fuel seg k).lastProcessedSeq = some (k + j - 1) ∧
      (∀ i : Nat, i < j → (pbLookup (k + i) seg.packetBuffer).isSome) ∧
      (∀ t : Int, pbLookup t (drainLoop fuel seg k).packetBuffer =
        if k ≤ t ∧ t < k + j then none else pbLookup t seg.packetBuffer) ∧
      (∀ e ∈ (drainLoop fuel seg k).packetBuffer, e ∈ seg.packetBuffer) ∧
      ((drainLoop fuel seg k).packetBuffer.map Prod.fst).Nodup ∧
      pbLookup (k + j) (drainLoop fuel seg k).packetBuffer = none := by
  induction fuel generalizing seg k with
  | zero =>
    have hpb : seg.packetBuffer = [] := List.length_eq_zero.1 (Nat.le_zero.1 hfuel)
    refine ⟨0, ?_, ?_, ?_, ?_, ?_, ?_, ?_, ?_⟩ <;>
      simp [drainLoop, hpb, hls, hlp, pbLookup]
  | succ fuel ih =>
    cases hlk : pbLookup k seg.packetBuffer with
    | none =>
      have hd0 : drainLoop (fuel + 1) seg k = seg := by
        unfold drainLoop
        rw [hlk]
      refine ⟨0, ?_, ?_, ?_, ?_, ?_, ?_, ?_, ?_⟩
      · simp [hd0]
      · simp [hd0, hls]
      · simp [hd0, hlp]
      · intro i hi
        omega
      · intro t
        rw [hd0]
        have hc : ¬ (k ≤ t ∧ t < k + ((0 : Nat) : Int)) := by
          push_cast
          omega
        rw [if_neg hc]
      · intro e he
        rw [hd0] at he
        exact he
      · rw [hd0]
        exact hnd
      · rw [hd0]
        simpa using hlk
    | some payload =>
      have hpay : payload = P k := hval k payload hlk le_rfl
      set segE : VoiceSegment := { seg with packetBuffer := pbErase k seg.packetBuffer }
        with hsegE
      set seg' : VoiceSegment :=
        { processPacket segE payload k with lastProcessedSeq := some k } with hseg'
      have hstep : drainLoop (fuel + 1) seg k = drainLoop fuel seg' (k + 1) := by
        conv_lhs => unfold drainLoop
        rw [hlk]
      have hpb' : seg'.packetBuffer = pbErase k seg.packetBuffer := by
        rw [hseg']
        show (processPacket segE payload k).packetBuffer = _
        rw [processPacket_packetBuffer]
      have hfuel' : seg'.packetBuffer.length ≤ fuel := by
        rw [hpb']
        have := pbErase_length hlk
        omega
      have hls' : seg'.lastSeq = some (k + 1 - 1) := by
        rw [hseg']
        show (processPacket segE payload k).lastSeq = _
        rw [processPacket_lastSeq]
        congr 1
        ring
      have hlp' : seg'.lastProcessedSeq = some (k + 1 - 1) := by
        rw [hseg']
        show some k = _
        congr 1
        ring
      have hnd' : (seg'.packetBuffer.map Prod.fst).Nodup := by
        rw [hpb']
        exact pbErase_nodup hnd k
      have hval' : ∀ s v, pbLookup s seg'.packetBuffer = some v → k + 1 ≤ s → v = P s := by
        intro s v hsv hks
        rw [hpb', pbLookup_erase hnd] at hsv
        rw [if_neg (by omega : ¬ k = s)] at hsv
        exact hval s v hsv (by omega)
      obtain ⟨j, hbuf, hlsj, hlpj, hpop, hchar, hmem, hndj, hstop⟩ :=
        ih seg' (k + 1) hfuel' hls' hlp' hnd' hval'
      have hbufE : seg'.buffer = seg.buffer ++ P k := by
        rw [hseg']
        show (processPacket segE payload k).buffer = _
        rw [processPacket_buffer_of_contig segE payload k (by rw [hsegE]; exact hls), hpay]
      refine ⟨j + 1, ?_, ?_, ?_, ?_, ?_, ?_, ?_, ?_⟩
      · rw [hstep, hbuf, hbufE, bufConcat_succ_cons, List.append_assoc]
      · rw [hstep, hlsj]
        congr 1
        push_cast
        ring
      · rw [hstep, hlpj]
        congr 1
        push_cast
        ring
      · intro i hi
        cases i with
        | zero =>
          simp only [Nat.cast_zero, add_zero]
          rw [hlk]
          rfl
        | succ i' =>
          have := hpop i' (by omega)
          rw [hpb', pbLookup_erase hnd] at this
          rw [if_neg (by push_cast; omega : ¬ k = k + 1 + (i' : Int))] at this
          have harith : k + ((i' : Nat) + 1 : Nat) = k + 1 + (i' : Int) := by push_cast; ring
          rw [harith]
          exact this
      · intro t
        rw [hstep, hchar t, hpb', pbLookup_erase hnd]
        by_cases ht : k = t
        · subst ht
          rw [if_neg (by omega : ¬ (k + 1 ≤ k ∧ k < k + 1 + (j : Int))), if_pos rfl,
            if_pos (by push_cast; omega)]
        · rw [if_neg ht]
          by_cases hin : k + 1 ≤ t ∧ t < k + 1 + (j : Int)
          · rw [if_pos hin, if_pos (by push_cast; omega)]
          · rw [if_neg hin, if_neg (by push_cast; omega)]
      · intro e he
        rw [hstep] at he
        have := hmem e he
        rw [hpb'] at this
        exact (pbErase_sublist k seg.packetBuffer).subset this
      · rw [hstep]
        exact hndj
      · rw [hstep]
        have harith : k + ((j : Nat) + 1 : Nat) = k + 1 + (j : Int) := by push_cast; ring
        rw [harith]
        exact hstop

/-! ### The reassembly invariant -/

/-- Unfolding of `add_packet` when `last_processed_seq` is already set. -/
theorem addPacket_eq_of_some {seg : VoiceSegment} {m : Int} (h : seg.lastProcessedSeq = some m)
    (payload : List Nat) (seq : Int) :
    addPacket seg payload seq =
      gcOld (drainLoop (pbInsert seq payload seg.packetBuffer).length
        { seg with packetBuffer := pbInsert seq payload seg.packetBuffer } (m + 1)) := by
  unfold addPacket
  simp only [h]

/-- If the next expected sequence is not buffered, the drain loop is a no-op. -/
theorem drainLoop_noop {seg : VoiceSegment} {k : Int}
    (h : pbLookup k seg.packetBuffer = none) (fuel : Nat) :
    drainLoop fuel seg k = seg := by
  cases fuel with
  | zero => rfl
  | succ fuel =>
    unfold drainLoop
    rw [h]

/-- Invariant relating a segment to the multiset of sequence numbers
delivered so far.  `P` names the true payload of every sequence number,
`s₀` is the first sequence delivered, all deliveries lie in `[s₀, s₀+n)`,
`done` lists the sequences delivered so far and `m` is the top of the
contiguous processed prefix: the buffer holds the payloads of `[s₀, m]` in
ascending order with no silence inserted, and `packet_buffer` holds every
delivered-but-unprocessed sequence with its true payload (re-deliveries of
already-processed sequences may additionally sit there as stale entries). -/
structure SegInv (P : Int → List Nat) (s₀ : Int) (n : Nat) (done : List Int) (m : Int)
    (seg : VoiceSegment) : Prop where
  hm : s₀ ≤ m
  hcontig : ∀ s : Int, s₀ ≤ s → s ≤ m → s ∈ done
  hdone_range : ∀ s ∈ done, s₀ ≤ s ∧ s < s₀ + n
  hnext : (m + 1) ∉ done
  hlp : seg.lastProcessedSeq = some m
  hls : seg.lastSeq = some m
  hbuf : seg.buffer = bufConcat P s₀ (m + 1 - s₀).toNat
  hpb_mem : ∀ e ∈ seg.packetBuffer, e.1 ∈ done ∧ (m < e.1 → e.2 = P e.1)
  hpb_lookup : ∀ s : Int, m < s → s ∈ done → pbLookup s seg.packetBuffer = some (P s)
  hnodup : (seg.packetBuffer.map Prod.fst).Nodup

/-- Delivering the very first packet `s₀` to a fresh segment establishes the
invariant with `done = [s₀]` and processed prefix `[s₀, s₀]`. -/
theorem addPacket_first (P : Int → List Nat) (s₀ : Int) (n : Nat) (hn : 0 < n) :
    SegInv P s₀ n [s₀] s₀ (addPacket VoiceSegment.new (P s₀) s₀) := by
  have hstep : addPacket VoiceSegment.new (P s₀) s₀ =
      gcOld { processPacket { VoiceSegment.new with lastProcessedSeq := some (s₀ - 1) }
          (P s₀) s₀ with lastProcessedSeq := some s₀ } := by
    unfold addPacket drainLoop
    norm_num [VoiceSegment.new, pbInsert, pbErase, pbLookup, drainLoop]
  have hRlp : ({ processPacket { VoiceSegment.new with lastProcessedSeq := some (s₀ - 1) }
      (P s₀) s₀ with lastProcessedSeq := some s₀ } : VoiceSegment).lastProcessedSeq =
      some s₀ := rfl
  rw [hstep]
  refine ⟨le_rfl, ?_, ?_, ?_, ?_, ?_, ?_, ?_, ?_, ?_⟩
  · intro s h1 h2
    have hss : s = s₀ := le_antisymm h2 h1
    simp [hss]
  · intro s hs
    simp only [List.mem_singleton] at hs
    subst hs
    exact ⟨le_rfl, by omega⟩
  · simp only [List.mem_singleton]
    omega
  · rw [gcOld_lastProcessedSeq, hRlp]
  · rw [gcOld_lastSeq]
    dsimp only
    rw [processPacket_lastSeq]
  · rw [gcOld_buffer]
    dsimp only
    rw [processPacket_buffer_of_none _ _ _ rfl]
    have h1 : (s₀ + 1 - s₀).toNat = 1 := by omega
    rw [h1, bufConcat_succ_cons, bufConcat_zero, List.append_nil]
    simp [VoiceSegment.new]
  · intro e he
    rw [gcOld_packetBuffer hRlp] at he
    dsimp only at he
    rw [processPacket_packetBuffer] at he
    simp [VoiceSegment.new] at he
  · intro s hms hs
    simp only [List.mem_singleton] at hs
    omega
  · rw [gcOld_packetBuffer hRlp]
    dsimp only
    rw [processPacket_packetBuffer]
    simp [VoiceSegment.new]

/-- Delivering any sequence `s ∈ [s₀, s₀+n)` — whether new or a re-delivery —
preserves the reassembly invariant, raising the processed prefix to some
new top `m'`. -/
theorem addPacket_inv {P : Int → List Nat} {s₀ : Int} {n : Nat} {done : List Int} {m : Int}
    {seg : VoiceSegment} (inv : SegInv P s₀ n done m seg)
    {s : Int} (hs₀ : s₀ ≤ s) (hsn : s < s₀ + n) :
    ∃ m', SegInv P s₀ n (s :: done) m' (addPacket seg (P s) s) := by
  have hstep := addPacket_eq_of_some inv.hlp (P s) s
  by_cases hsd : s ∈ done
  · -- re-delivery of an already delivered sequence: the drain loop is a no-op
    refine ⟨m, ?_⟩
    have hsne : s ≠ m + 1 := fun h => inv.hnext (h ▸ hsd)
    have hlk1 : pbLookup (m + 1)
        (({ seg with packetBuffer := pbInsert s (P s) seg.packetBuffer } :
          VoiceSegment).packetBuffer) = none := by
      show pbLookup (m + 1) (pbInsert s (P s) seg.packetBuffer) = none
      rw [pbLookup_insert, if_neg hsne]
      cases h : pbLookup (m + 1) seg.packetBuffer with
      | none => rfl
      | some v => exact absurd (inv.hpb_mem _ (pbLookup_mem h)).1 inv.hnext
    have hnoop := @drainLoop_noop
      { seg with packetBuffer := pbInsert s (P s) seg.packetBuffer } (m + 1) hlk1
      (pbInsert s (P s) seg.packetBuffer).length
    rw [hstep, hnoop]
    have hlp1 : ({ seg with packetBuffer := pbInsert s (P s) seg.packetBuffer } :
        VoiceSegment).lastProcessedSeq = some m := inv.hlp
    refine ⟨inv.hm, ?_, ?_, ?_, ?_, ?_, ?_, ?_, ?_, ?_⟩
    · intro t h1 h2
      exact List.mem_cons_of_mem _ (inv.hcontig t h1 h2)
    · intro t ht
      rcases List.mem_cons.1 ht with h | h
      · exact h ▸ ⟨hs₀, hsn⟩
      · exact inv.hdone_range t h
    · intro h
      rcases List.mem_cons.1 h with h | h
      · exact hsne (by omega)
      · exact inv.hnext h
    · rw [gcOld_lastProcessedSeq]
      exact inv.hlp
    · rw [gcOld_lastSeq]
      exact inv.hls
    · rw [gcOld_buffer]
      exact inv.hbuf
    · intro e he
      rw [gcOld_packetBuffer hlp1] at he
      have he1 : e ∈ pbInsert s (P s) seg.packetBuffer := List.mem_of_mem_filter he
      rcases pbInsert_mem he1 with h | h
      · obtain ⟨h1, h2⟩ := inv.hpb_mem e h
        exact ⟨List.mem_cons_of_mem _ h1, h2⟩
      · rw [h]
        exact ⟨List.mem_cons_self _ _, fun _ => rfl⟩
    · intro t hmt htd
      rw [gcOld_packetBuffer hlp1]
      have hl1 : pbLookup t (pbInsert s (P s) seg.packetBuffer) = some (P t) := by
        rw [pbLookup_insert]
        by_cases hts : s = t
        · rw [if_pos hts, hts]
        · rw [if_neg hts]
          have htdone : t ∈ done := by
            rcases List.mem_cons.1 htd with h | h
            · exact absurd h.symm hts
            · exact h
          exact inv.hpb_lookup t hmt htdone
      exact pbLookup_filter_of_pos hl1 (by simp only [decide_eq_true_eq]; omega)
    · rw [gcOld_packetBuffer hlp1]
      exact ((List.filter_sublist _).map Prod.fst).nodup
        (pbInsert_keys_nodup inv.hnodup s (P s))
  · -- first delivery of `s`: drain the contiguous run that may now be complete
    have hms : m < s := by
      by_contra h
      push_neg at h
      exact hsd (inv.hcontig s hs₀ h)
    have hls1 : ({ seg with packetBuffer := pbInsert s (P s) seg.packetBuffer } :
        VoiceSegment).lastSeq = some (m + 1 - 1) := by
      show seg.lastSeq = _
      rw [inv.hls]
      congr 1
      ring
    have hlp1 : ({ seg with packetBuffer := pbInsert s (P s) seg.packetBuffer } :
        VoiceSegment).lastProcessedSeq = some (m + 1 - 1) := by
      show seg.lastProcessedSeq = _
      rw [inv.hlp]
      congr 1
      ring
    have hnd1 : (({ seg with packetBuffer := pbInsert s (P s) seg.packetBuffer } :
        VoiceSegment).packetBuffer.map Prod.fst).Nodup :=
      pbInsert_keys_nodup inv.hnodup s (P s)
    have hval1 : ∀ t v, pbLookup t (({ seg with
        packetBuffer := pbInsert s (P s) seg.packetBuffer } :
        VoiceSegment).packetBuffer) = some v → m + 1 ≤ t → v = P t := by
      intro t v htv hmt
      rw [show ({ seg with packetBuffer := pbInsert s (P s) seg.packetBuffer } :
        VoiceSegment).packetBuffer = pbInsert s (P s) seg.packetBuffer from rfl,
        pbLookup_insert] at htv
      by_cases hts : s = t
      · rw [if_pos hts] at htv
        rw [← Option.some.inj htv, ← hts]
      · rw [if_neg hts] at htv
        exact (inv.hpb_mem _ (pbLookup_mem htv)).2 (by omega)
    obtain ⟨j, hbufj, hlsj, hlpj, hpop, hchar, hmem, hndj, hstop⟩ :=
      drainLoop_spec P (pbInsert s (P s) seg.packetBuffer).length
        { seg with packetBuffer := pbInsert s (P s) seg.packetBuffer } (m + 1)
        le_rfl hls1 hlp1 hnd1 hval1
    have hRlp : (drainLoop (pbInsert s (P s) seg.packetBuffer).length
        { seg with packetBuffer := pbInsert s (P s) seg.packetBuffer }
        (m + 1)).lastProcessedSeq = some (m + (j : Int)) := by
      rw [hlpj]
      congr 1
      ring
    refine ⟨m + (j : Int), ?_⟩
    rw [hstep]
    have hinsert_lookup : ∀ t : Int, m < t → t ∈ s :: done →
        pbLookup t (pbInsert s (P s) seg.packetBuffer) = some (P t) := by
      intro t hmt htd
      rw [pbLookup_insert]
      by_cases hts : s = t
      · rw [if_pos hts, hts]
      · rw [if_neg hts]
        have htdone : t ∈ done := by
          rcases List.mem_cons.1 htd with h | h
          · exact absurd h.symm hts
          · exact h
        exact inv.hpb_lookup t hmt htdone
    refine ⟨by have := inv.hm; omega, ?_, ?_, ?_, ?_, ?_, ?_, ?_, ?_, ?_⟩
    · intro t h1 h2
      by_cases htm : t ≤ m
      · exact List.mem_cons_of_mem _ (inv.hcontig t h1 htm)
      · push_neg at htm
        have hi : (t - (m + 1)).toNat < j := by omega
        have hsome := hpop _ hi
        rw [Option.isSome_iff_exists] at hsome
        obtain ⟨v, hv⟩ := hsome
        have harith : (m + 1) + (((t - (m + 1)).toNat : Nat) : Int) = t := by omega
        rw [harith] at hv
        rcases pbInsert_mem (pbLookup_mem hv) with h | h
        · exact List.mem_cons_of_mem _ ((inv.hpb_mem _ h).1)
        · have ht : t = s := by simpa using congrArg Prod.fst h
          rw [ht]
          exact List.mem_cons_self _ _
    · intro t ht
      rcases List.mem_cons.1 ht with h | h
      · exact h ▸ ⟨hs₀, hsn⟩
      · exact inv.hdone_range t h
    · intro hcontra
      have hlk : pbLookup (m + (j : Int) + 1) (pbInsert s (P s) seg.packetBuffer) =
          some (P (m + (j : Int) + 1)) :=
        hinsert_lookup _ (by omega) hcontra
      have hc := hchar (m + (j : Int) + 1)
      rw [if_neg (by push_cast; omega)] at hc
      rw [hlk] at hc
      have harith : (m + 1 : Int) + (j : Int) = m + (j : Int) + 1 := by ring
      rw [harith] at hstop
      rw [hstop] at hc
      simp at hc
    · rw [gcOld_lastProcessedSeq]
      exact hRlp
    · rw [gcOld_lastSeq, hlsj]
      congr 1
      ring
    · rw [gcOld_buffer, hbufj]
      have hbufseg : ({ seg with packetBuffer := pbInsert s (P s) seg.packetBuffer } :
          VoiceSegment).buffer = bufConcat P s₀ (m + 1 - s₀).toNat := inv.hbuf
      rw [hbufseg]
      have hm0 := inv.hm
      have ha : (m + (j : Int) + 1 - s₀).toNat = (m + 1 - s₀).toNat + j := by omega
      rw [ha, bufConcat_append]
      have hsa : s₀ + (((m + 1 - s₀).toNat : Nat) : Int) = m + 1 := by omega
      rw [hsa]
    · intro e he
      rw [gcOld_packetBuffer hRlp] at he
      have he1 := hmem e (List.mem_of_mem_filter he)
      rcases pbInsert_mem he1 with h | h
      · obtain ⟨h1, h2⟩ := inv.hpb_mem e h
        exact ⟨List.mem_cons_of_mem _ h1, fun hlt => h2 (by omega)⟩
      · rw [h]
        exact ⟨List.mem_cons_self _ _, fun _ => rfl⟩
    · intro t hmt htd
      rw [gcOld_packetBuffer hRlp]
      have hl2 : pbLookup t (drainLoop (pbInsert s (P s) seg.packetBuffer).length
          { seg with packetBuffer := pbInsert s (P s) seg.packetBuffer }
          (m + 1)).packetBuffer = some (P t) := by
        rw [hchar t, if_neg (by push_cast; omega)]
        exact hinsert_lookup t (by omega) htd
      exact pbLookup_filter_of_pos hl2 (by simp only [decide_eq_true_eq]; omega)
    · rw [gcOld_packetBuffer hRlp]
      exact ((List.filter_sublist _).map Prod.fst).nodup hndj

/-- Folding further deliveries over a segment preserves the invariant; the
delivered set grows by exactly the delivered elements. -/
theorem foldl_addPacket_inv (P : Int → List Nat) (s₀ : Int) (n : Nat) :
    ∀ (rest done : List Int) (m : Int) (seg : VoiceSegment),
      SegInv P s₀ n done m seg →
      (∀ s ∈ rest, s₀ ≤ s ∧ s < s₀ + n) →
      ∃ done' m', SegInv P s₀ n done' m'
          (rest.foldl (fun sg s => addPacket sg (P s) s) seg) ∧
        (∀ s : Int, s ∈ done' ↔ s ∈ done ∨ s ∈ rest) := by
  intro rest
  induction rest with
  | nil =>
    intro done m seg hinv _
    exact ⟨done, m, hinv, fun s => by simp⟩
  | cons a rest ih =>
    intro done m seg hinv hmem
    obtain ⟨m1, hinv1⟩ := addPacket_inv hinv (hmem a (List.mem_cons_self _ _)).1
      (hmem a (List.mem_cons_self _ _)).2
    obtain ⟨done', m', hinv', hiff⟩ := ih (a :: done) m1 _ hinv1
      (fun t ht => hmem t (List.mem_cons_of_mem _ ht))
    refine ⟨done', m', by simpa using hinv', ?_⟩
    intro t
    rw [hiff t]
    simp only [List.mem_cons]
    tauto

/-- Master lemma: when every delivery lies in `[s₀, s₀+n)`, the first
delivery is `s₀`, and every sequence number of the range is delivered at
least once (re-deliveries allowed), the final buffer is the in-order
concatenation of the payloads, with no silence inserted. -/
theorem runSeqs_buffer (P : Int → List Nat) (s₀ : Int) (n : Nat) (hn : 0 < n)
    (L : List Int) (hhead : L.head? = some s₀)
    (hmem : ∀ s ∈ L, s₀ ≤ s ∧ s < s₀ + n)
    (hall : ∀ s : Int, s₀ ≤ s → s < s₀ + n → s ∈ L) :
    (runSeqs P L).buffer = bufConcat P s₀ n := by
  cases L with
  | nil => simp [List.head?] at hhead
  | cons a rest =>
    have ha : a = s₀ := by simpa [List.head?] using hhead
    subst ha
    unfold runSeqs
    simp only [List.foldl_cons]
    obtain ⟨done', m', hinv, hiff⟩ := foldl_addPacket_inv P a n rest [a] a _
      (addPacket_first P a n hn)
      (fun t ht => hmem t (List.mem_cons_of_mem _ ht))
    have hm'lt : m' < a + n := (hinv.hdone_range m' (hinv.hcontig m' hinv.hm le_rfl)).2
    have hm'ge : a + n - 1 ≤ m' := by
      by_contra hc
      push_neg at hc
      have hge := hinv.hm
      have h1 : a ≤ m' + 1 := by omega
      have h2 : m' + 1 < a + n := by omega
      have hmem1 : m' + 1 ∈ a :: rest := hall _ h1 h2
      have hd : m' + 1 ∈ done' := by
        rw [hiff]
        rcases List.mem_cons.1 hmem1 with h | h
        · left
          simp [h]
        · right
          exact h
      exact hinv.hnext hd
    have hm' : m' = a + n - 1 := by omega
    rw [hinv.hbuf, hm']
    congr 1
    omega

/-- C1 (counterexample): the permutation that delivers the higher sequence
number first yields a different byte buffer — `add_packet` anchors
`last_processed_seq` at `first_seq - 1`, so an earlier packet arriving
later is never processed. -/
theorem C1_reorder_counterexample :
    [((2 : Int), List.replicate 160 2), (1, List.replicate 160 1)].Perm
      [((1 : Int), List.replicate 160 1), (2, List.replicate 160 2)] ∧
    (runPackets [((2 : Int), List.replicate 160 2), (1, List.replicate 160 1)]).buffer ≠
      (runPackets [((1 : Int), List.replicate 160 1), (2, List.replicate 160 2)]).buffer := by
  constructor
  · decide
  · decide

/-- C1 (amended): for a finite set of in-call packets with distinct,
contiguous sequence numbers (no loss), delivering them in any permutation
*whose first packet is the one with the smallest sequence number* yields
the same segment byte buffer as delivering them in ascending order. -/
theorem C1_reorder_amended (P : Int → List Nat) (s₀ : Int) (n : Nat) (hn : 0 < n)
    (L : List Int) (hperm : L.Perm (intRange s₀ n)) (hhead : L.head? = some s₀) :
    (runSeqs P L).buffer = (runSeqs P (intRange s₀ n)).buffer := by
  have hmemL : ∀ s ∈ L, s₀ ≤ s ∧ s < s₀ + n := fun s hs =>
    mem_intRange.1 (hperm.mem_iff.1 hs)
  have hallL : ∀ s : Int, s₀ ≤ s → s < s₀ + n → s ∈ L := fun s h1 h2 =>
    hperm.mem_iff.2 (mem_intRange.2 ⟨h1, h2⟩)
  have hmemR : ∀ s ∈ intRange s₀ n, s₀ ≤ s ∧ s < s₀ + n := fun s hs => mem_intRange.1 hs
  have hallR : ∀ s : Int, s₀ ≤ s → s < s₀ + n → s ∈ intRange s₀ n := fun s h1 h2 =>
    mem_intRange.2 ⟨h1, h2⟩
  have hheadR : (intRange s₀ n).head? = some s₀ := by
    cases n with
    | zero => omega
    | succ n' =>
      rw [intRange_succ_cons]
      rfl
  rw [runSeqs_buffer P s₀ n hn L hhead hmemL hallL,
    runSeqs_buffer P s₀ n hn _ hheadR hmemR hallR]

/-- Witness for `C1_reorder_amended` at the concrete min-first permutation
`[1, 3, 2]` of `[1, 2, 3]`. -/
theorem C1_reorder_amended_witness :
    (runSeqs (fun s => List.replicate 160 s.toNat) [1, 3, 2]).buffer =
      (runSeqs (fun s => List.replicate 160 s.toNat) (intRange 1 3)).buffer :=
  C1_reorder_amended (fun s => List.replicate 160 s.toNat) 1 3 (by decide) [1, 3, 2]
    (by decide) (by decide)

/-- C4: when a processed packet leaves a gap `g = (seq - last - 1) & 0xFFFF`
with `1 ≤ g ≤ 100` to the previously processed packet, `_process_packet`
appends exactly `g` silence payloads of the packet's payload length (byte
`0xFF`) before the packet's own payload, increments `discontinuities` by
one, and sets `max_seq_gap` to the maximum of its old value and `g`. -/
theorem C4_gap_handling (seg : VoiceSegment) (payload : List Nat) (seq last : Int)
    (hlast : seg.lastSeq = some last)
    (hg1 : 1 ≤ (seq - last - 1) % 65536) (hg2 : (seq - last - 1) % 65536 ≤ 100) :
    (processPacket seg payload seq).buffer =
      seg.buffer ++
        List.replicate (((seq - last - 1) % 65536).toNat * payload.length) silenceByte ++
        payload ∧
    (processPacket seg payload seq).discontinuities = seg.discontinuities + 1 ∧
    (processPacket seg payload seq).maxSeqGap =
      max seg.maxSeqGap ((seq - last - 1) % 65536).toNat := by
  unfold processPacket
  rw [hlast]
  dsimp only
  rw [if_pos (by omega : (0 : Int) < (seq - last - 1) % 65536)]
  refine ⟨?_, ?_, ?_⟩ <;> (split <;> simp [appendSilence_eq])

/-- Witness for `C4_gap_handling`: previous sequence 5, new sequence 9,
gap 3, payload length 2. -/
theorem C4_gap_handling_witness :
    (processPacket { VoiceSegment.new with buffer := [1], lastSeq := some 5 } [2, 2] 9).buffer =
      [1] ++ List.replicate ((((9 : Int) - 5 - 1) % 65536).toNat * [2, 2].length) silenceByte ++
        [2, 2] ∧
    (processPacket { VoiceSegment.new with buffer := [1], lastSeq := some 5 }
      [2, 2] 9).discontinuities =
      ({ VoiceSegment.new with buffer := [1], lastSeq := some 5 } :
        VoiceSegment).discontinuities + 1 ∧
    (processPacket { VoiceSegment.new with buffer := [1], lastSeq := some 5 } [2, 2] 9).maxSeqGap =
      max ({ VoiceSegment.new with buffer := [1], lastSeq := some 5 } :
        VoiceSegment).maxSeqGap (((9 : Int) - 5 - 1) % 65536).toNat :=
  C4_gap_handling { VoiceSegment.new with buffer := [1], lastSeq := some 5 } [2, 2] 9 5
    rfl (by decide) (by decide)

/-- C5 (counterexample): delivering the same packet (sequence 0) twice does
not leave the segment identical to delivering it once — the duplicate is
re-inserted into `packet_buffer`, and once processing has advanced past
sequence 100 it is garbage-collected and counted as a discontinuity, so the
counters differ (the byte buffer itself stays equal). -/
theorem C5_duplicate_counterexample :
    (runPackets (((0 : Int), List.replicate 160 1) :: ((0 : Int), List.replicate 160 1) ::
      (List.range 101).map (fun i => ((i : Int) + 1, List.replicate 160 1)))).discontinuities
      = 1 ∧
    (runPackets (((0 : Int), List.replicate 160 1) ::
      (List.range 101).map (fun i => ((i : Int) + 1, List.replicate 160 1)))).discontinuities
      = 0 := by
  constructor
  · rfl
  · rfl

/-- C5 (amended): delivering a packet a second time never changes the byte
buffer: a run that re-delivers an already delivered sequence `s` produces
the same buffer as the run without the re-delivery.  (The duplicate is not
detected and dropped, however: it re-enters `packet_buffer` and can later
be garbage-collected as a spurious discontinuity, see the counterexample.) -/
theorem C5_duplicate_amended (P : Int → List Nat) (s₀ : Int) (n : Nat) (hn : 0 < n)
    (L₁ L₂ : List Int) (s : Int) (hs : s ∈ L₁)
    (hhead : L₁.head? = some s₀)
    (hmem : ∀ t ∈ L₁ ++ L₂, s₀ ≤ t ∧ t < s₀ + n)
    (hall : ∀ t : Int, s₀ ≤ t → t < s₀ + n → t ∈ L₁ ++ L₂) :
    (runSeqs P (L₁ ++ s :: L₂)).buffer = (runSeqs P (L₁ ++ L₂)).buffer := by
  have hsrange : s₀ ≤ s ∧ s < s₀ + n := hmem s (List.mem_append.2 (Or.inl hs))
  have hhead1 : (L₁ ++ s :: L₂).head? = some s₀ := by
    cases L₁ with
    | nil => simp at hs
    | cons a t => simpa using hhead
  have hhead2 : (L₁ ++ L₂).head? = some s₀ := by
    cases L₁ with
    | nil => simp at hs
    | cons a t => simpa using hhead
  have hmem1 : ∀ t ∈ L₁ ++ s :: L₂, s₀ ≤ t ∧ t < s₀ + n := by
    intro t ht
    rcases List.mem_append.1 ht with h | h
    · exact hmem t (List.mem_append.2 (Or.inl h))
    · rcases List.mem_cons.1 h with h | h
      · exact h ▸ hsrange
      · exact hmem t (List.mem_append.2 (Or.inr h))
  have hall1 : ∀ t : Int, s₀ ≤ t → t < s₀ + n → t ∈ L₁ ++ s :: L₂ := by
    intro t h1 h2
    rcases List.mem_append.1 (hall t h1 h2) with h | h
    · exact List.mem_append.2 (Or.inl h)
    · exact List.mem_append.2 (Or.inr (List.mem_cons_of_mem _ h))
  rw [runSeqs_buffer P s₀ n hn _ hhead1 hmem1 hall1,
    runSeqs_buffer P s₀ n hn _ hhead2 hmem hall]

/-- Witness for `C5_duplicate_amended`: delivering `[5, 5, 6]` (sequence 5
twice) gives the same buffer as `[5, 6]`. -/
theorem C5_duplicate_amended_witness :
    (runSeqs (fun s => List.replicate 160 s.toNat) ([5] ++ 5 :: [6])).buffer =
      (runSeqs (fun s => List.replicate 160 s.toNat) ([5] ++ [6])).buffer :=
  C5_duplicate_amended (fun s => List.replicate 160 s.toNat) 5 2 (by decide) [5] [6] 5
    (by decide) (by decide) (by decide) (by decide)

/-! ### The ASR daemon's event-ordering queue (`backend-daemon/daemon.py`)

The daemon keeps one min-heap per `peer_ip` plus one `last_published[peer_ip]`
value; distinct peers never interact (`try_publish_ready_events` handles each
queue independently and `flush_peer` touches one key).  The embedding below
models the state attached to one fixed peer.  `PendingEvent` orders by
`voice_start_ts` alone (`event` and `receive_time` carry `compare=False`), and
`heapq` always pops a minimum, so the heap is embedded as a list kept sorted
by `voice_start_ts`.  Timestamps are rationals: the code only adds, divides by
1000 and compares them. -/

/-- The event dictionaries the daemon publishes (`asr_update` carries the
three timestamp fields; `call_finished` omits them, hence `Option`). -/
structure AsrEvent where
  type : String
  text : String
  peer_ip : String
  source : String
  unique_key : Option String
  ssrc : Option Nat
  is_finished : Bool
  voice_start_ts : Option Rat
  chunk_start_ts : Option Rat
  offset_ms : Option Nat
  deriving Repr, DecidableEq

/-- `PendingEvent` of daemon.py. -/
structure PendingEvent where
  voice_start_ts : Rat
  event : AsrEvent
  receive_time : Rat
  deriving Repr, DecidableEq

/-- `heapq.heappush` on a heap ordered by `voice_start_ts`: insertion into
the sorted-list embedding. -/
def heapPush (e : PendingEvent) : List PendingEvent → List PendingEvent
  | [] => [e]
  | f :: rest =>
    if e.voice_start_ts < f.voice_start_ts then e :: f :: rest else f :: heapPush e rest

/-- Per-peer slice of `EventQueueManager`: `queues[peer_ip]` and
`last_published[peer_ip]` (`none` when the key is absent — the code then
uses `last_published.get(peer_ip, 0)`). -/
structure EQState where
  queue : List PendingEvent := []
  lastPublished : Option Rat := none
  deriving Repr, DecidableEq

/-- The drain loop of `try_publish_ready_events` for one peer: publish the
top while `top.voice_start_ts >= last_published.get(peer_ip, 0)` or
`now - top.receive_time >= max_delay_sec`; on each publish set
`last_published[peer_ip] = top.voice_start_ts`.  Returns the published
events in order, the new `last_published` and the remaining queue. -/
def drainQueue (now maxDelay : Rat) :
    List PendingEvent → Option Rat → List PendingEvent × Option Rat × List PendingEvent
  | [], lastPub => ([], lastPub, [])
  | top :: rest, lastPub =>
    if top.voice_start_ts ≥ lastPub.getD 0 ∨ now - top.receive_time ≥ maxDelay then
      let r := drainQueue now maxDelay rest (some top.voice_start_ts)
      (top :: r.1, r.2.1, r.2.2)
    else ([], lastPub, top :: rest)

/-- `EventQueueManager.try_publish_ready_events`, restricted to one peer. -/
def tryPublishReady (now maxDelay : Rat) (st : EQState) : List PendingEvent × EQState :=
  let r := drainQueue now maxDelay st.queue st.lastPublished
  (r.1, ⟨r.2.2, r.2.1⟩)

/-- `EventQueueManager.add_event`: push with `receive_time = now`. -/
def addEvent (evt : AsrEvent) (ts now : Rat) (st : EQState) : EQState :=
  { st with queue := heapPush ⟨ts, evt, now⟩ st.queue }

/-- `EventQueueManager.flush_peer`: pop and publish everything in heap order,
then delete the peer's queue and its `last_published` entry. -/
def flushPeer (st : EQState) : List PendingEvent × EQState :=
  (st.queue, ⟨[], none⟩)

/-- Operations arriving at one peer's queue: an event added at some receive
time, or a drain pass at some wall-clock time (the daemon drains after each
`add_event`; the model lets drains happen at any times). -/
inductive QOp where
  | add (evt : AsrEvent) (ts : Rat) (now : Rat)
  | drain (now : Rat)
  deriving Repr, DecidableEq

/-- Run a sequence of queue operations; each published event is paired with
the time of the drain pass that published it. -/
def runOps (maxDelay : Rat) : List QOp → EQState → List (PendingEvent × Rat) × EQState
  | [], st => ([], st)
  | QOp.add evt ts now :: ops, st => runOps maxDelay ops (addEvent evt ts now st)
  | QOp.drain now :: ops, st =>
    let r := tryPublishReady now maxDelay st
    let rest := runOps maxDelay ops r.2
    (r.1.map (fun p => (p, now)) ++ rest.1, rest.2)

/-- The published-sequence predicate: each event either does not precede the
previous published timestamp, or was held at least `maxDelay` at its publish
time; tracked from an initial `last_published` value. -/
def GoodFrom (maxDelay : Rat) : Option Rat → List (PendingEvent × Rat) → Prop
  | _, [] => True
  | lp, (p, tp) :: rest =>
    (p.voice_start_ts ≥ lp.getD 0 ∨ tp - p.receive_time ≥ maxDelay) ∧
      GoodFrom maxDelay (some p.voice_start_ts) rest

theorem heapPush_mem (e : PendingEvent) (l : List PendingEvent) (a : PendingEvent) :
    a ∈ heapPush e l ↔ a = e ∨ a ∈ l := by
  induction l with
  | nil => simp [heapPush]
  | cons f rest ih =>
    by_cases h : e.voice_start_ts < f.voice_start_ts
    · rw [heapPush, if_pos h]
      simp [List.mem_cons]
    · rw [heapPush, if_neg h]
      simp only [List.mem_cons, ih]
      tauto

theorem heapPush_sorted {l : List PendingEvent}
    (hl : l.Sorted (fun a b => a.voice_start_ts ≤ b.voice_start_ts)) (e : PendingEvent) :
    (heapPush e l).Sorted (fun a b => a.voice_start_ts ≤ b.voice_start_ts) := by
  induction l with
  | nil => simp [heapPush]
  | cons f rest ih =>
    rw [List.sorted_cons] at hl
    by_cases h : e.voice_start_ts < f.voice_start_ts
    · rw [heapPush, if_pos h, List.sorted_cons]
      refine ⟨?_, List.sorted_cons.2 hl⟩
      intro b hb
      rcases List.mem_cons.1 hb with hb | hb
      · rw [hb]
        exact le_of_lt h
      · exact le_trans (le_of_lt h) (hl.1 b hb)
    · rw [heapPush, if_neg h, List.sorted_cons]
      refine ⟨?_, ih hl.2⟩
      intro b hb
      rcases (heapPush_mem e rest b).1 hb with hb | hb
      · rw [hb]
        exact le_of_not_lt h
      · exact hl.1 b hb

theorem drainQueue_partition (now maxDelay : Rat) :
    ∀ (q : List PendingEvent) (lp : Option Rat),
      (drainQueue now maxDelay q lp).1 ++ (drainQueue now maxDelay q lp).2.2 = q := by
  intro q
  induction q with
  | nil => intro lp; rfl
  | cons top rest ih =>
    intro lp
    rw [drainQueue]
    split
    · simpa using ih (some top.voice_start_ts)
    · rfl

theorem getLast?_cons_isSome {α : Type} (a : α) (l : List α) :
    ∃ p, (a :: l).getLast? = some p := by
  induction l generalizing a with
  | nil => exact ⟨a, rfl⟩
  | cons b m ih =>
    obtain ⟨p, hp⟩ := ih b
    exact ⟨p, by rw [List.getLast?_cons_cons]; exact hp⟩

/-- `last_published` after the drained events `l`, starting from `lp`. -/
def lastTs (lp : Option Rat) (l : List (PendingEvent × Rat)) : Option Rat :=
  match l.getLast? with
  | some pt => some pt.1.voice_start_ts
  | none => lp

theorem drainQueue_good (now maxDelay : Rat) :
    ∀ (q : List PendingEvent) (lp : Option Rat),
      GoodFrom maxDelay lp ((drainQueue now maxDelay q lp).1.map (fun p => (p, now))) := by
  intro q
  induction q with
  | nil => intro lp; trivial
  | cons top rest ih =>
    intro lp
    rw [drainQueue]
    split
    · rename_i hcond
      exact ⟨hcond, ih (some top.voice_start_ts)⟩
    · trivial

theorem drainQueue_lastPub (now maxDelay : Rat) :
    ∀ (q : List PendingEvent) (lp : Option Rat),
      (drainQueue now maxDelay q lp).2.1 =
        match (drainQueue now maxDelay q lp).1.getLast? with
        | some p => some p.voice_start_ts
        | none => lp := by
  intro q
  induction q with
  | nil => intro lp; rfl
  | cons top rest ih =>
    intro lp
    rw [drainQueue]
    split
    · rw [ih (some top.voice_start_ts)]
      cases h : (drainQueue now maxDelay rest (some top.voice_start_ts)).1 with
      | nil => simp [h]
      | cons a l =>
        obtain ⟨p, hp⟩ := getLast?_cons_isSome a l
        simp [h, hp, List.getLast?_cons_cons]
    · rfl

theorem GoodFrom_append (maxDelay : Rat) :
    ∀ (l₁ l₂ : List (PendingEvent × Rat)) (lp : Option Rat),
      GoodFrom maxDelay lp l₁ → GoodFrom maxDelay (lastTs lp l₁) l₂ →
      GoodFrom maxDelay lp (l₁ ++ l₂) := by
  intro l₁
  induction l₁ with
  | nil => intro l₂ lp _ h2; simpa [lastTs] using h2
  | cons pt rest ih =>
    intro l₂ lp h1 h2
    obtain ⟨hc, hr⟩ := h1
    refine ⟨hc, ih l₂ (some pt.1.voice_start_ts) hr ?_⟩
    have : lastTs lp (pt :: rest) = lastTs (some pt.1.voice_start_ts) rest := by
      cases hr0 : rest with
      | nil => simp [lastTs]
      | cons a l =>
        obtain ⟨p, hp⟩ := getLast?_cons_isSome a l
        simp [lastTs, List.getLast?_cons_cons, hp]
    rw [← this]
    exact h2

theorem GoodFrom_chain (maxDelay : Rat) :
    ∀ (l : List (PendingEvent × Rat)) (lp : Option Rat), GoodFrom maxDelay lp l →
      List.Chain' (fun a b : PendingEvent × Rat =>
        b.1.voice_start_ts ≥ a.1.voice_start_ts ∨ b.2 - b.1.receive_time ≥ maxDelay) l := by
  intro l
  induction l with
  | nil => intro lp _; exact List.chain'_nil
  | cons pt rest ih =>
    intro lp h
    obtain ⟨_, hr⟩ := h
    rw [List.chain'_cons']
    refine ⟨?_, ih (some pt.1.voice_start_ts) hr⟩
    intro b hb
    cases rest with
    | nil => simp at hb
    | cons q l =>
      simp only [List.head?_cons, Option.mem_def, Option.some.injEq] at hb
      subst hb
      obtain ⟨hq, _⟩ := hr
      simpa using hq

theorem runOps_good (maxDelay : Rat) :
    ∀ (ops : List QOp) (st : EQState),
      GoodFrom maxDelay st.lastPublished (runOps maxDelay ops st).1 := by
  intro ops
  induction ops with
  | nil => intro st; trivial
  | cons op rest ih =>
    intro st
    cases op with
    | add evt ts now => exact ih (addEvent evt ts now st)
    | drain now =>
      rw [runOps]
      simp only [tryPublishReady]
      refine GoodFrom_append maxDelay _ _ _ (drainQueue_good now maxDelay st.queue
        st.lastPublished) ?_
      have hlast : lastTs st.lastPublished
          (((drainQueue now maxDelay st.queue st.lastPublished).1).map (fun p => (p, now))) =
          (drainQueue now maxDelay st.queue st.lastPublished).2.1 := by
        rw [drainQueue_lastPub, lastTs, List.getLast?_map]
        cases h : (drainQueue now maxDelay st.queue st.lastPublished).1.getLast? with
        | none => rfl
        | some p => rfl
      rw [hlast]
      exact ih ⟨(drainQueue now maxDelay st.queue st.lastPublished).2.2,
        (drainQueue now maxDelay st.queue st.lastPublished).2.1⟩

/-- C2: per-peer event ordering in `EventQueueManager`.  (i) The event at
the top of the heap is published iff its `voice_start_ts` is at least the
peer's `last_published` value (0 when absent) or it has waited at least
`max_delay` since receipt; (ii) on publish, `last_published` becomes the
published event's `voice_start_ts` (the last published one after a drain);
(iii) consequently, in any run the published sequence is monotonically
non-decreasing in `voice_start_ts` except at events that were held at least
`max_delay` before publication. -/
theorem C2_event_ordering :
    (∀ (now maxDelay : Rat) (lastPub : Option Rat) (top : PendingEvent)
        (rest : List PendingEvent),
      (drainQueue now maxDelay (top :: rest) lastPub).1.head? = some top ↔
        (top.voice_start_ts ≥ lastPub.getD 0 ∨ now - top.receive_time ≥ maxDelay)) ∧
    (∀ (now maxDelay : Rat) (q : List PendingEvent) (lastPub : Option Rat),
      (drainQueue now maxDelay q lastPub).2.1 =
        match (drainQueue now maxDelay q lastPub).1.getLast? with
        | some p => some p.voice_start_ts
        | none => lastPub) ∧
    (∀ (maxDelay : Rat) (ops : List QOp),
      List.Chain' (fun a b : PendingEvent × Rat =>
        b.1.voice_start_ts ≥ a.1.voice_start_ts ∨ b.2 - b.1.receive_time ≥ maxDelay)
        (runOps maxDelay ops ⟨[], none⟩).1) := by
  refine ⟨?_, drainQueue_lastPub, ?_⟩
  · intro now maxDelay lastPub top rest
    by_cases hcond : top.voice_start_ts ≥ lastPub.getD 0 ∨ now - top.receive_time ≥ maxDelay
    · rw [drainQueue, if_pos hcond]
      simp [hcond]
    · rw [drainQueue, if_neg hcond]
      simp [hcond]
  · intro maxDelay ops
    exact GoodFrom_chain maxDelay _ _ (runOps_good maxDelay ops ⟨[], none⟩)

/-! ### The daemon main loop: allow list, event construction, flush on finish -/

/-- Metadata of one input message (`meta_json` of the A→B multipart message,
as read in `main`): identity tuple, timestamps, `IsFinished`. -/
structure InMeta where
  peer_ip : String
  source : String
  unique_key : Option String
  ssrc : Option Nat
  start_ts : Option Rat
  end_ts : Option Rat
  isFinished : Bool
  deriving Repr, DecidableEq

/-- Result of `_asr_generate_blocking` when speech was recognized: the
function returns `None` on empty text, so a present result always carries
the recognized text and the VAD start offset in milliseconds. -/
structure AsrResult where
  text : String
  vad_start_ms : Nat
  deriving Repr, DecidableEq

/-- The `asr_update` event built in `main` (daemon.py lines 494–511):
`chunk_start_ts = start_ts if start_ts is not None else 0`,
`voice_start_ts = chunk_start_ts + vad_start_ms / 1000.0`, identity tuple
copied from the input metadata, and `is_finished` copied from the input's
`IsFinished` flag.  Returns the event together with its `voice_start_ts`
(the priority used by `add_event`). -/
def mkAsrUpdate (meta : InMeta) (r : AsrResult) : AsrEvent × Rat :=
  let chunk_start_ts : Rat := meta.start_ts.getD 0
  let voice_start_ts : Rat := chunk_start_ts + (r.vad_start_ms : Rat) / 1000
  ({ type := "asr_update"
     text := r.text
     peer_ip := meta.peer_ip
     source := meta.source
     unique_key := meta.unique_key
     ssrc := meta.ssrc
     is_finished := meta.isFinished
     voice_start_ts := some voice_start_ts
     chunk_start_ts := some chunk_start_ts
     offset_ms := some r.vad_start_ms }, voice_start_ts)

/-- The `call_finished` event built in `main` (daemon.py lines 536–544). -/
def mkCallFinished (meta : InMeta) : AsrEvent :=
  { type := "call_finished"
    text := ""
    peer_ip := meta.peer_ip
    source := meta.source
    unique_key := meta.unique_key
    ssrc := meta.ssrc
    is_finished := true
    voice_start_ts := none
    chunk_start_ts := none
    offset_ms := none }

/-- `_load_allow_list`: `none` when the file is missing; otherwise strip each
line, keep the non-empty ones, and return `none` when nothing remains
(empty or missing file means "allow all").  The Python code builds a set;
only membership matters, so a list with the same members is kept. -/
def loadAllowList (file : Option (List String)) : Option (List String) :=
  match file with
  | none => none
  | some lines =>
    let ips := (lines.map (fun ln => ln.trim)).filter (fun ln => ln ≠ "")
    if ips.isEmpty then none else some ips

/-- The whitelist test of the main loop:
`allow_ips is not None and peer_ip not in allow_ips` drops the message. -/
def allowed (allowIps : Option (List String)) (peer_ip : String) : Bool :=
  match allowIps with
  | none => true
  | some ips => decide (peer_ip ∈ ips)

/-- The ASR step of one main-loop iteration (daemon.py lines 484–529): when
the PCM part is non-empty (`if pcm:`) and `_asr_generate_blocking` returned
a result, build the `asr_update` event, `add_event` it and run
`try_publish_ready_events`; otherwise nothing is published and the queue
state is unchanged. -/
def processAsr (st : EQState) (meta : InMeta) (pcmNonempty : Bool)
    (asr : Option AsrResult) (now maxDelay : Rat) : List PendingEvent × EQState :=
  match pcmNonempty, asr with
  | true, some r =>
    tryPublishReady now maxDelay (addEvent (mkAsrUpdate meta r).1 (mkAsrUpdate meta r).2 now st)
  | true, none => ([], st)
  | false, _ => ([], st)

/-- The finishing step of one main-loop iteration (daemon.py lines 531–560):
on `IsFinished`, `flush_peer` then publish the `call_finished` event. -/
def processFinish (meta : InMeta) (step1 : List PendingEvent × EQState) :
    List AsrEvent × EQState :=
  if meta.isFinished then
    (step1.1.map (fun p => p.event) ++ (flushPeer step1.2).1.map (fun p => p.event) ++
      [mkCallFinished meta], (flushPeer step1.2).2)
  else (step1.1.map (fun p => p.event), step1.2)

/-- One iteration of the daemon main loop for a message of the modelled
peer (per-peer projection of the queue state): allow-list check, ASR step,
finishing step.  Returns the events published by this iteration in order. -/
def processMessage (allowIps : Option (List String)) (maxDelay : Rat) (st : EQState)
    (meta : InMeta) (pcmNonempty : Bool) (asr : Option AsrResult) (now : Rat) :
    List AsrEvent × EQState :=
  if allowed allowIps meta.peer_ip = false then ([], st)
  else processFinish meta (processAsr st meta pcmNonempty asr now maxDelay)

/-- The ASR step rearranges the peer's queue but loses nothing: published
events followed by the remaining queue form one list that contains the old
queue (plus at most the new event) and stays heap-ordered. -/
theorem processAsr_partition (st : EQState) (meta : InMeta) (pcmNonempty : Bool)
    (asr : Option AsrResult) (now maxDelay : Rat) :
    (∀ p ∈ st.queue, p ∈ (processAsr st meta pcmNonempty asr now maxDelay).1 ++
      (processAsr st meta pcmNonempty asr now maxDelay).2.queue) ∧
    (st.queue.Sorted (fun a b => a.voice_start_ts ≤ b.voice_start_ts) →
      ((processAsr st meta pcmNonempty asr now maxDelay).1 ++
        (processAsr st meta pcmNonempty asr now maxDelay).2.queue).Sorted
        (fun a b => a.voice_start_ts ≤ b.voice_start_ts)) := by
  cases pcmNonempty with
  | false => exact ⟨fun p hp => hp, fun h => h⟩
  | true =>
    cases asr with
    | none => exact ⟨fun p hp => hp, fun h => h⟩
    | some r =>
      simp only [processAsr, tryPublishReady, addEvent]
      rw [drainQueue_partition]
      exact ⟨fun p hp => (heapPush_mem _ _ _).2 (Or.inr hp),
        fun h => heapPush_sorted h _⟩

/-- C3: flush-on-finish.  When a call-finishing input (`IsFinished = true`)
passes the allow-list check, the events published for it are exactly a
heap-ordered list of pending events followed by the `call_finished` event:
every event pending in the peer's priority queue when the input is
processed is published before `call_finished` (in ascending
`voice_start_ts` when the queue is heap-ordered), `call_finished` — which
carries the input's `(peer_ip, source, unique_key, ssrc)` — is the last
event of the iteration, and the peer's queue is left empty. -/
theorem C3_flush_on_finish (allowIps : Option (List String)) (maxDelay : Rat) (st : EQState)
    (meta : InMeta) (pcmNonempty : Bool) (asr : Option AsrResult) (now : Rat)
    (hfin : meta.isFinished = true)
    (hallow : allowed allowIps meta.peer_ip = true)
    (hsort : st.queue.Sorted (fun a b => a.voice_start_ts ≤ b.voice_start_ts)) :
    ∃ l : List PendingEvent,
      (processMessage allowIps maxDelay st meta pcmNonempty asr now).1 =
        l.map (fun p => p.event) ++ [mkCallFinished meta] ∧
      (∀ p ∈ st.queue, p ∈ l) ∧
      l.Sorted (fun a b => a.voice_start_ts ≤ b.voice_start_ts) ∧
      (processMessage allowIps maxDelay st meta pcmNonempty asr now).2.queue = [] := by
  obtain ⟨hmem, hsorted⟩ := processAsr_partition st meta pcmNonempty asr now maxDelay
  refine ⟨(processAsr st meta pcmNonempty asr now maxDelay).1 ++
    (processAsr st meta pcmNonempty asr now maxDelay).2.queue, ?_, hmem, hsorted hsort, ?_⟩
  · rw [processMessage, if_neg (by simp [hallow]), processFinish, if_pos hfin]
    simp [flushPeer, List.map_append, List.append_assoc]
  · rw [processMessage, if_neg (by simp [hallow]), processFinish, if_pos hfin]
    rfl

/-- Sample pending event used in concrete instantiations. -/
def sampleEvent : AsrEvent :=
  { type := "asr_update"
    text := "t"
    peer_ip := "1.1.1.1"
    source := "citizen"
    unique_key := some "k"
    ssrc := some 3
    is_finished := false
    voice_start_ts := some 10
    chunk_start_ts := some 10
    offset_ms := some 0 }

/-- Sample finishing input metadata used in concrete instantiations. -/
def sampleFinishMeta : InMeta :=
  { peer_ip := "1.1.1.1"
    source := "citizen"
    unique_key := some "k"
    ssrc := some 3
    start_ts := some 11
    end_ts := some 13
    isFinished := true }

/-- Witness for `C3_flush_on_finish`: one pending event, a finishing input
with no recognized text. -/
theorem C3_flush_on_finish_witness :
    ∃ l : List PendingEvent,
      (processMessage none 5 ⟨[⟨10, sampleEvent, 2⟩], some 4⟩ sampleFinishMeta
          false none 20).1 =
        l.map (fun p => p.event) ++ [mkCallFinished sampleFinishMeta] ∧
      (∀ p ∈ (⟨[⟨10, sampleEvent, 2⟩], some 4⟩ : EQState).queue, p ∈ l) ∧
      l.Sorted (fun a b => a.voice_start_ts ≤ b.voice_start_ts) ∧
      (processMessage none 5 ⟨[⟨10, sampleEvent, 2⟩], some 4⟩ sampleFinishMeta
          false none 20).2.queue = [] :=
  C3_flush_on_finish none 5 ⟨[⟨10, sampleEvent, 2⟩], some 4⟩ sampleFinishMeta
    false none 20 rfl rfl (by simp)

/-- Sample finishing input whose PCM yields recognized text. -/
def sampleFinishAsrMeta : InMeta :=
  { peer_ip := "10.0.0.9"
    source := "citizen"
    unique_key := some "k1"
    ssrc := some 7
    start_ts := some 100
    end_ts := some 102
    isFinished := true }

/-- Sample recognition result. -/
def sampleAsrResult : AsrResult :=
  { text := "hello"
    vad_start_ms := 250 }

/-- C7 (counterexample): when the finishing input itself carries PCM on
which recognition returns text, the emitted `asr_update` has
`is_finished = true`, not `false` — `main` copies the input's `IsFinished`
flag into the event. -/
theorem C7_counterexample :
    (mkAsrUpdate sampleFinishAsrMeta sampleAsrResult).1.is_finished = true ∧
    ((processMessage none 5 ⟨[], none⟩ sampleFinishAsrMeta true (some sampleAsrResult)
        100).1.map (fun e => (e.type, e.is_finished))) =
      [("asr_update", true), ("call_finished", true)] := by
  constructor
  · rfl
  · norm_num [processMessage, allowed, processFinish, processAsr, tryPublishReady,
      addEvent, heapPush, drainQueue, flushPeer, mkAsrUpdate, mkCallFinished,
      sampleFinishAsrMeta, sampleAsrResult]

/-- C7 (amended): for every input on which recognition returns (non-empty)
text, the `asr_update` event built by `main` carries
`voice_start_ts = start_ts + vad_start_ms / 1000`, the full identity tuple
`(peer_ip, source, unique_key, ssrc)`, the text and both timestamps; its
`is_finished` field equals the input's `IsFinished` flag (so it is `false`
exactly for the non-final segments, not always). -/
theorem C7_event_construction (meta : InMeta) (r : AsrResult) (ts : Rat)
    (hst : meta.start_ts = some ts) :
    (mkAsrUpdate meta r).1.type = "asr_update" ∧
    (mkAsrUpdate meta r).1.text = r.text ∧
    (mkAsrUpdate meta r).1.peer_ip = meta.peer_ip ∧
    (mkAsrUpdate meta r).1.source = meta.source ∧
    (mkAsrUpdate meta r).1.unique_key = meta.unique_key ∧
    (mkAsrUpdate meta r).1.ssrc = meta.ssrc ∧
    (mkAsrUpdate meta r).1.voice_start_ts = some (ts + (r.vad_start_ms : Rat) / 1000) ∧
    (mkAsrUpdate meta r).1.chunk_start_ts = some ts ∧
    (mkAsrUpdate meta r).1.offset_ms = some r.vad_start_ms ∧
    (mkAsrUpdate meta r).1.is_finished = meta.isFinished ∧
    (mkAsrUpdate meta r).2 = ts + (r.vad_start_ms : Rat) / 1000 := by
  simp [mkAsrUpdate, hst]

/-- Witness for `C7_event_construction` at a concrete non-final input. -/
theorem C7_event_construction_witness :
    (mkAsrUpdate { sampleFinishAsrMeta with isFinished := false } sampleAsrResult).1.type
      = "asr_update" ∧
    (mkAsrUpdate { sampleFinishAsrMeta with isFinished := false } sampleAsrResult).1.text
      = sampleAsrResult.text ∧
    (mkAsrUpdate { sampleFinishAsrMeta with isFinished := false } sampleAsrResult).1.peer_ip
      = ({ sampleFinishAsrMeta with isFinished := false } : InMeta).peer_ip ∧
    (mkAsrUpdate { sampleFinishAsrMeta with isFinished := false } sampleAsrResult).1.source
      = ({ sampleFinishAsrMeta with isFinished := false } : InMeta).source ∧
    (mkAsrUpdate { sampleFinishAsrMeta with isFinished := false } sampleAsrResult).1.unique_key
      = ({ sampleFinishAsrMeta with isFinished := false } : InMeta).unique_key ∧
    (mkAsrUpdate { sampleFinishAsrMeta with isFinished := false } sampleAsrResult).1.ssrc
      = ({ sampleFinishAsrMeta with isFinished := false } : InMeta).ssrc ∧
    (mkAsrUpdate { sampleFinishAsrMeta with isFinished := false } sampleAsrResult).1.voice_start_ts
      = some ((100 : Rat) + ((sampleAsrResult.vad_start_ms : Nat) : Rat) / 1000) ∧
    (mkAsrUpdate { sampleFinishAsrMeta with isFinished := false } sampleAsrResult).1.chunk_start_ts
      = some (100 : Rat) ∧
    (mkAsrUpdate { sampleFinishAsrMeta with isFinished := false } sampleAsrResult).1.offset_ms
      = some sampleAsrResult.vad_start_ms ∧
    (mkAsrUpdate { sampleFinishAsrMeta with isFinished := false } sampleAsrResult).1.is_finished
      = ({ sampleFinishAsrMeta with isFinished := false } : InMeta).isFinished ∧
    (mkAsrUpdate { sampleFinishAsrMeta with isFinished := false } sampleAsrResult).2
      = (100 : Rat) + ((sampleAsrResult.vad_start_ms : Nat) : Rat) / 1000 :=
  C7_event_construction { sampleFinishAsrMeta with isFinished := false } sampleAsrResult
    100 rfl

/-- C8: allow-list invariant.  When `_load_allow_list` returned a (then
necessarily non-empty) set of IPs, a message whose `peer_ip` is not in it
is dropped before any processing: no event (neither `asr_update` nor
`call_finished`) is published and the queue state is unchanged.  A missing
file loads as `none`, a file whose stripped lines are all empty loads as
`none`, a loaded list is never empty, and with `none` every `peer_ip`
passes the check. -/
theorem C8_allow_list :
    (∀ (ips : List String) (maxDelay : Rat) (st : EQState)
        (meta : InMeta) (pcm : Bool) (asr : Option AsrResult) (now : Rat),
      meta.peer_ip ∉ ips →
      processMessage (some ips) maxDelay st meta pcm asr now = ([], st)) ∧
    loadAllowList none = none ∧
    (∀ lines : List String,
      (lines.map (fun ln => ln.trim)).filter (fun ln => ln ≠ "") = [] →
      loadAllowList (some lines) = none) ∧
    (∀ (lines : List String) (ips : List String),
      loadAllowList (some lines) = some ips → ips ≠ []) ∧
    (∀ ip : String, allowed none ip = true) := by
  refine ⟨?_, rfl, ?_, ?_, fun ip => rfl⟩
  · intro ips maxDelay st meta pcm asr now hnot
    rw [processMessage, if_pos]
    simp only [allowed, decide_eq_false_iff_not]
    exact hnot
  · intro lines hempty
    rw [loadAllowList, if_pos (by rw [hempty]; rfl)]
  · intro lines ips hload
    rw [loadAllowList] at hload
    by_cases hemp : ((lines.map (fun ln => ln.trim)).filter (fun ln => ln ≠ "")).isEmpty
    · rw [if_pos hemp] at hload
      exact absurd hload (by simp)
    · rw [if_neg hemp] at hload
      rw [← Option.some.inj hload]
      simpa [List.isEmpty_iff] using hemp

/-- Witness for `C8_allow_list`: a one-entry allow list drops a message
from a different IP without publishing anything. -/
theorem C8_allow_list_witness :
    processMessage (some ["10.0.0.1"]) 5 ⟨[], none⟩
        { sampleFinishAsrMeta with peer_ip := "10.0.0.2" }
        true (some sampleAsrResult) 100 = ([], ⟨[], none⟩) :=
  C8_allow_list.1 ["10.0.0.1"] 5 ⟨[], none⟩
    { sampleFinishAsrMeta with peer_ip := "10.0.0.2" }
    true (some sampleAsrResult) 100 (by decide)

/-! ### Capture-side segment emission (`listen_and_build_voice_stream.py`) -/

/-- The per-call current segment as far as emission is concerned: its
duration is `samples_received / 8000` (`VoiceSegment.get_duration`); the
identity fields and the byte buffer play no role in the emission decision
and are omitted. -/
structure CaptureSegment where
  samplesReceived : Nat
  deriving Repr, DecidableEq

/-- `VoiceSegment.get_duration`. -/
def getDuration (seg : CaptureSegment) : Rat := (seg.samplesReceived : Rat) / 8000

/-- Events the capture component publishes for a call. -/
inductive CapEvent where
  | voiceSegment (sequence : Nat) (samples : Nat)
  | callEnd
  deriving Repr, DecidableEq

/-- `VoiceStreamCapture.publish_current_segment`: publish the current
segment *only* when its duration has reached `duration_threshold`; then
bump the per-call counter and start a fresh segment.  Below the threshold
nothing is published and the segment is kept as is. -/
def publishCurrentSegment (threshold : Rat) (seg? : Option CaptureSegment) (counter : Nat) :
    List CapEvent × Option CaptureSegment × Nat :=
  match seg? with
  | none => ([], none, counter)
  | some seg =>
    if getDuration seg ≥ threshold then
      ([CapEvent.voiceSegment counter seg.samplesReceived], some ⟨0⟩, counter + 1)
    else ([], some seg, counter)

/-- The `BYE` branch of `VoiceStreamCapture.process_sip_packet` for an
active outgoing call (the 30 s path in `check_call_timeouts` is
identical): mark inactive, call `publish_current_segment` ("Publish any
remaining segment"), then publish the call-end signal. -/
def processBye (threshold : Rat) (seg? : Option CaptureSegment) (counter : Nat) :
    List CapEvent × Option CaptureSegment × Nat :=
  let pub := publishCurrentSegment threshold seg? counter
  (pub.1 ++ [CapEvent.callEnd], pub.2.1, pub.2.2)

/-- C6: the claim says an open segment of any positive duration is flushed
when its call ends; the code instead routes the end-of-call flush through
`publish_current_segment`, which refuses to publish below the 2 s
threshold — despite its own comment "Publish any remaining segment".  At
the failing input (an open segment of 8000 samples = 1.0 s > 0 when `BYE`
arrives), only the call-end signal is emitted and the segment's audio is
never published. -/
theorem C6_flush_on_call_end_code_bug :
    getDuration ⟨8000⟩ = 1 ∧
    (0 : Rat) < getDuration ⟨8000⟩ ∧
    getDuration ⟨8000⟩ < 2 ∧
    processBye 2 (some ⟨8000⟩) 0 = ([CapEvent.callEnd], some ⟨8000⟩, 0) ∧
    (∀ seg : CaptureSegment, getDuration seg ≥ 2 →
      processBye 2 (some seg) 0 =
        ([CapEvent.voiceSegment 0 seg.samplesReceived, CapEvent.callEnd], some ⟨0⟩, 1)) := by
  refine ⟨?_, ?_, ?_, ?_, ?_⟩
  · norm_num [getDuration]
  · norm_num [getDuration]
  · norm_num [getDuration]
  · norm_num [processBye, publishCurrentSegment, getDuration]
  · intro seg hdur
    rw [processBye, publishCurrentSegment, if_pos hdur]
    rfl

/-- Witness for the hypothesis-bearing conjunct of
`C6_flush_on_call_end_code_bug`: a 2.0 s segment is published at `BYE`. -/
theorem C6_flush_on_call_end_code_bug_witness :
    getDuration ⟨16000⟩ ≥ 2 ∧
    processBye 2 (some ⟨16000⟩) 0 =
      ([CapEvent.voiceSegment 0 16000, CapEvent.callEnd], some ⟨0⟩, 1) :=
  ⟨by norm_num [getDuration],
    C6_flush_on_call_end_code_bug.2.2.2.2 ⟨16000⟩ (by norm_num [getDuration])⟩

/-! ### Ticket proxy failure mapping (`websocket-server/ws_ticket_routes.py`
with `ai-generated-ticket/test_service.py`) -/

/-- The four-field upstream response schema; `none` marks an absent field
(the schema check in `send_test_request` and the `TicketResponse`
validation both test field presence). -/
structure TicketPayload where
  ticket_type : Option String
  ticket_zone : Option String
  ticket_title : Option String
  ticket_content : Option String
  deriving Repr, DecidableEq

/-- The validated `TicketResponse` model. -/
structure TicketResponse where
  ticket_type : String
  ticket_zone : String
  ticket_title : String
  ticket_content : String
  deriving Repr, DecidableEq

/-- The possible outcomes of the upstream `requests.post` call inside
`send_test_request`. -/
inductive UpstreamOutcome where
  | timeout
  | connError
  | otherExn
  | httpStatus (code : Nat)
  | okPayload (p : TicketPayload)
  deriving Repr, DecidableEq

/-- `send_test_request(..., return_response=True)`: timeouts, connection
errors, unexpected exceptions and non-200 statuses all yield
`(False, None)`; a 200 response yields `(True, result)` when the four
required fields are present and `(False, result)` otherwise. -/
def sendTestRequest (outcome : UpstreamOutcome) : Bool × Option TicketPayload :=
  match outcome with
  | .timeout => (false, none)
  | .connError => (false, none)
  | .otherExn => (false, none)
  | .httpStatus _ => (false, none)
  | .okPayload p =>
    if p.ticket_type.isSome ∧ p.ticket_zone.isSome ∧ p.ticket_title.isSome ∧
        p.ticket_content.isSome then
      (true, some p)
    else (false, some p)

/-- Result of the `/ticketGeneration` route handler. -/
inductive HandlerResult where
  | ok (t : TicketResponse)
  | httpError (status : Nat)
  deriving Repr, DecidableEq

/-- HTTP status of a handler result. -/
def statusOf : HandlerResult → Nat
  | .ok _ => 200
  | .httpError c => c

/-- Python truthiness of the returned payload (`not payload`): absent, or
an empty dict. -/
def payloadFalsy : Option TicketPayload → Bool
  | none => true
  | some p =>
    decide (p.ticket_type = none ∧ p.ticket_zone = none ∧ p.ticket_title = none ∧
      p.ticket_content = none)

/-- `ticket_generation` (ws_ticket_routes.py lines 85–155): call
`send_test_request` once; `not success or not payload` → 502;
`TicketResponse(**payload)` validation failure → 502; otherwise return the
validated response.  (The outer `except Exception` → 502 path is the
`otherExn` outcome.)  No retry exists: the handler consults the upstream
outcome exactly once. -/
def ticketGeneration (outcome : UpstreamOutcome) : HandlerResult :=
  let r := sendTestRequest outcome
  if r.1 = false ∨ payloadFalsy r.2 then HandlerResult.httpError 502
  else
    match r.2 with
    | none => HandlerResult.httpError 502
    | some p =>
      match p.ticket_type, p.ticket_zone, p.ticket_title, p.ticket_content with
      | some a, some b, some c, some d => HandlerResult.ok ⟨a, b, c, d⟩
      | _, _, _, _ => HandlerResult.httpError 502

/-- C9 (counterexample): an upstream timeout is answered with HTTP 502,
not 504 — `send_test_request` swallows `requests.exceptions.Timeout` into
`(False, None)` and the route maps every failure to 502; no 504 is ever
produced. -/
theorem C9_timeout_counterexample :
    statusOf (ticketGeneration UpstreamOutcome.timeout) = 502 ∧
    statusOf (ticketGeneration UpstreamOutcome.timeout) ≠ 504 := by
  constructor
  · rfl
  · decide

/-- C9 (amended): every upstream failure — timeout, transport/connection
error, unexpected exception, non-2xx HTTP status, or a 200 response whose
schema misses a required field — yields HTTP 502 to the caller (timeouts
included, not 504); a 200 response carrying all four fields is returned
unchanged with status 200.  The handler consults the upstream exactly once
(no retry). -/
theorem C9_failure_mapping :
    statusOf (ticketGeneration UpstreamOutcome.timeout) = 502 ∧
    statusOf (ticketGeneration UpstreamOutcome.connError) = 502 ∧
    statusOf (ticketGeneration UpstreamOutcome.otherExn) = 502 ∧
    (∀ code : Nat, statusOf (ticketGeneration (UpstreamOutcome.httpStatus code)) = 502) ∧
    (∀ p : TicketPayload,
      p.ticket_type = none ∨ p.ticket_zone = none ∨ p.ticket_title = none ∨
        p.ticket_content = none →
      statusOf (ticketGeneration (UpstreamOutcome.okPayload p)) = 502) ∧
    (∀ a b c d : String,
      ticketGeneration (UpstreamOutcome.okPayload ⟨some a, some b, some c, some d⟩) =
        HandlerResult.ok ⟨a, b, c, d⟩) := by
  refine ⟨rfl, rfl, rfl, fun code => rfl, ?_, ?_⟩
  · intro p hmiss
    rw [ticketGeneration]
    have hfail : (sendTestRequest (UpstreamOutcome.okPayload p)).1 = false := by
      rw [sendTestRequest]
      rw [if_neg]
      intro hall
      rcases hmiss with h | h | h | h <;> simp [h] at hall
    rw [if_pos (Or.inl hfail)]
    rfl
  · intro a b c d
    rfl

/-- Witness for `C9_failure_mapping` at a 200 response that misses
`ticket_zone`. -/
theorem C9_failure_mapping_witness :
    statusOf (ticketGeneration (UpstreamOutcome.okPayload
      ⟨some "t", none, some "title", some "content"⟩)) = 502 ∧
    ticketGeneration (UpstreamOutcome.okPayload
      ⟨some "t", some "z", some "ti", some "c"⟩) = HandlerResult.ok ⟨"t", "z", "ti", "c"⟩ :=
  ⟨C9_failure_mapping.2.2.2.2.1 ⟨some "t", none, some "title", some "content"⟩
      (Or.inr (Or.inl rfl)),
    C9_failure_mapping.2.2.2.2.2 "t" "z" "ti" "c"⟩

/-! ### WebSocket client registry (`websocket-server/websocket.py`) -/

/-- Dict assignment `d[cid] = v` (overwrite in place or append; Python dicts
keep insertion order and unique keys). -/
def regInsert {β : Type} (k : String) (v : β) : List (String × β) → List (String × β)
  | [] => [(k, v)]
  | e :: rest => if e.1 = k then (k, v) :: rest else e :: regInsert k v rest

/-- Dict removal `d.pop(cid, None)`: drop the key when present. -/
def regPop {β : Type} (k : String) : List (String × β) → List (String × β)
  | [] => []
  | e :: rest => if e.1 = k then rest else e :: regPop k rest

/-- Key list after an insert, as a function of the old key list alone. -/
def keyInsert (k : String) : List String → List String
  | [] => [k]
  | a :: rest => if a = k then k :: rest else a :: keyInsert k rest

/-- Key list after a pop, as a function of the old key list alone. -/
def keyPop (k : String) : List String → List String
  | [] => []
  | a :: rest => if a = k then rest else a :: keyPop k rest

/-- The registry operations of `websocket.py`. `connect` is the accept path
of `websocket_listening_endpoint` (lines 351–352: both dicts gain the new
`client_id`); `disconnect` is its `finally` block (lines 388–389: both
dicts pop it), also run on `stop_listening` and receive errors; `evict` is
the send-failure cleanup of `_dispatch_asr_event` (lines 232–233 and
293–294: the problem clients are popped from both dicts). -/
inductive RegistryOp where
  | connect (cid : String) (ws : Nat) (ip : String)
  | disconnect (cid : String)
  | evict (cids : List String)
  deriving Repr, DecidableEq

/-- The two module-level dicts: `LISTENING_CLIENTS : cid → websocket`
(sockets abstracted to handles) and `CLIENT_IP_MAPPING : cid → ip`. -/
structure WSState where
  listening : List (String × Nat)
  mapping : List (String × Option String)
  deriving Repr, DecidableEq

/-- Apply one registry operation exactly as the source mutates the two
dicts. -/
def applyRegistryOp (st : WSState) : RegistryOp → WSState
  | .connect cid ws ip =>
    ⟨regInsert cid ws st.listening, regInsert cid (some ip) st.mapping⟩
  | .disconnect cid => ⟨regPop cid st.listening, regPop cid st.mapping⟩
  | .evict cids =>
    ⟨cids.foldl (fun l c => regPop c l) st.listening,
      cids.foldl (fun l c => regPop c l) st.mapping⟩

/-- The server's registry state after a sequence of operations, from the
empty initial dicts. -/
def runRegistry (ops : List RegistryOp) : WSState := ops.foldl applyRegistryOp ⟨[], []⟩

theorem regInsert_keys {β : Type} (k : String) (v : β) (l : List (String × β)) :
    (regInsert k v l).map Prod.fst = keyInsert k (l.map Prod.fst) := by
  induction l with
  | nil => rfl
  | cons e rest ih =>
    by_cases he : e.1 = k <;> simp [regInsert, keyInsert, List.map_cons, he, ih]

theorem regPop_keys {β : Type} (k : String) (l : List (String × β)) :
    (regPop k l).map Prod.fst = keyPop k (l.map Prod.fst) := by
  induction l with
  | nil => rfl
  | cons e rest ih =>
    by_cases he : e.1 = k <;> simp [regPop, keyPop, List.map_cons, he, ih]

theorem foldl_regPop_keys {β : Type} (cids : List String) :
    ∀ l : List (String × β),
      (cids.foldl (fun acc c => regPop c acc) l).map Prod.fst =
        cids.foldl (fun acc c => keyPop c acc) (l.map Prod.fst) := by
  induction cids with
  | nil => intro l; rfl
  | cons c rest ih =>
    intro l
    rw [List.foldl_cons, List.foldl_cons, ih, regPop_keys]

theorem applyRegistryOp_keys (st : WSState)
    (h : st.listening.map Prod.fst = st.mapping.map Prod.fst) (op : RegistryOp) :
    (applyRegistryOp st op).listening.map Prod.fst =
      (applyRegistryOp st op).mapping.map Prod.fst := by
  cases op with
  | connect cid ws ip =>
    show (regInsert cid ws st.listening).map Prod.fst =
      (regInsert cid (some ip) st.mapping).map Prod.fst
    rw [regInsert_keys, regInsert_keys, h]
  | disconnect cid =>
    show (regPop cid st.listening).map Prod.fst = (regPop cid st.mapping).map Prod.fst
    rw [regPop_keys, regPop_keys, h]
  | evict cids =>
    show (cids.foldl (fun l c => regPop c l) st.listening).map Prod.fst =
      (cids.foldl (fun l c => regPop c l) st.mapping).map Prod.fst
    rw [foldl_regPop_keys, foldl_regPop_keys, h]

/-- C10: client-registry consistency.  Every operation of the WebSocket
server — client accept, client disconnect / `stop_listening`, and eviction
on send failure — inserts or removes a `client_id` in `LISTENING_CLIENTS`
and `CLIENT_IP_MAPPING` together, so after any sequence of operations the
two dicts have exactly the same keys (even in the same order). -/
theorem C10_registry_consistency (ops : List RegistryOp) :
    (runRegistry ops).listening.map Prod.fst = (runRegistry ops).mapping.map Prod.fst := by
  suffices h : ∀ st : WSState, st.listening.map Prod.fst = st.mapping.map Prod.fst →
      (ops.foldl applyRegistryOp st).listening.map Prod.fst =
        (ops.foldl applyRegistryOp st).mapping.map Prod.fst by
    exact h ⟨[], []⟩ rfl
  induction ops with
  | nil => intro st h; exact h
  | cons op rest ih =>
    intro st h
    rw [List.foldl_cons]
    exact ih (applyRegistryOp st op) (applyRegistryOp_keys st h op)
